import Mathlib

/-!
Shallow embedding of the marching-cubes extraction core of
`MarchingCubes.py` (MarchingCubesVisualizer), together with proofs of the
specification claims about it.

Scalar samples and thresholds are modelled as rationals (`ℚ`); the Python
code uses IEEE doubles, but every claim under consideration is about exact
comparisons, midpoints and list structure, which the rational model renders
faithfully.
-/

namespace MarchingCubes

/-- A 3D point, as produced by `marchingCubesPolygons` (a Python 3-tuple). -/
abbrev Point : Type := ℚ × ℚ × ℚ

/-- The local variable `VERTICES` of `marchingCubesPolygons`
(MarchingCubes.py lines 33-41): the 8 corners of the unit cube,
in the fixed canonical order. -/
def VERTICES : List Point :=
  [(0,0,0), (1,0,0), (1,1,0), (0,1,0), (0,0,1), (1,0,1), (1,1,1), (0,1,1)]

/-- The local variable `EDGES` of `marchingCubesPolygons`
(MarchingCubes.py lines 43-55): the 12 edges of the cube as pairs of
corner indices. Indices are `Fin 8` because the Python code indexes the
8-element lists `values` and `VERTICES` with them. -/
def EDGES : List (Fin 8 × Fin 8) :=
  [(0,1), (1,2), (2,3), (0,3), (0,4), (1,5), (2,6), (3,7),
   (4,5), (5,6), (6,7), (4,7)]

/-- Lookup `VERTICES[i]` for a corner index `i`. -/
def vertexAt (i : Fin 8) : Point :=
  VERTICES.get (Fin.cast (by rfl) i)

/-- The midpoint computation of MarchingCubes.py line 68:
`tuple( (a+b)/2 for a,b in zip(VERTICES[e0], VERTICES[e1]) )`. -/
def midpoint (p q : Point) : Point :=
  ((p.1 + q.1) / 2, (p.2.1 + q.2.1) / 2, (p.2.2 + q.2.2) / 2)

/-- Midpoint of the two corner positions of an edge. -/
def midpointOf (e : Fin 8 × Fin 8) : Point :=
  midpoint (vertexAt e.1) (vertexAt e.2)

/-- The active-edge test of MarchingCubes.py line 63:
`(values[edge[0]] > threshold) != (values[edge[1]] > threshold)`. -/
def isActive (values : Fin 8 → ℚ) (threshold : ℚ) (e : Fin 8 × Fin 8) : Bool :=
  decide (values e.1 > threshold) != decide (values e.2 > threshold)

/-- Squared Euclidean distance between two points. The Python sort key
(line 75) is the Euclidean distance `(dx^2+dy^2+dz^2)**(1/2)`; since the
square root is strictly monotone on nonnegative reals, comparing the
squared distances induces exactly the same order on the sort keys, so the
sort below is key-for-key faithful to the source. -/
def sqDist (p q : Point) : ℚ :=
  (q.1 - p.1)^2 + (q.2.1 - p.2.1)^2 + (q.2.2 - p.2.2)^2

/-- The call `sorted(l, key=lambda item: dist(item, a))` of
MarchingCubes.py lines 74-76: a stable sort by distance to `a` (Python's
`sorted` is stable; `List.insertionSort` with a `≤`-shaped relation is
the stable sort for that key order). -/
def sortByDist (a : Point) (l : List Point) : List Point :=
  List.insertionSort (fun p q => sqDist a p ≤ sqDist a q) l

/-- One pass of the in-place loop of MarchingCubes.py lines 72-76:
at each index, the suffix after the current element is re-sorted by
distance to the current element; the loop body runs once per position,
which the fuel argument (initially the list length) mirrors exactly. -/
def chainSortAux : ℕ → List Point → List Point
  | 0, l => l
  | _ + 1, [] => []
  | n + 1, a :: rest => a :: chainSortAux n (sortByDist a rest)

/-- The vertex-ordering loop of MarchingCubes.py lines 72-76. -/
def chainSort (l : List Point) : List Point :=
  chainSortAux l.length l

/-- The function `marchingCubesPolygons(values, threshold)`
(MarchingCubes.py lines 20-78): collect the active edges in `EDGES`
order, take the midpoint of each active edge's two corners, and order the
resulting vertices by the greedy distance-chain sort. -/
def marchingCubesPolygons (values : Fin 8 → ℚ) (threshold : ℚ) : List Point :=
  let activeEdges := EDGES.filter (fun e => isActive values threshold e)
  let polygonVertices := activeEdges.map (fun e => midpoint (vertexAt e.1) (vertexAt e.2))
  chainSort polygonVertices

/-- The vertex ordering exactly as the specification words it (spec §4.2
step 3): starting from the first vertex, repeatedly sort the *remaining*
vertices by Euclidean distance to the *current* vertex and fix that order
permanently, the current vertex always being the one immediately
preceding in final list order. Stated as its own definition so that the
code's in-place loop (`chainSort`) can be proved to refine it. -/
def greedyChainOrder : List Point → List Point
  | [] => []
  | curr :: remaining => curr :: greedyChainOrder (sortByDist curr remaining)
termination_by l => l.length
decreasing_by simp [sortByDist, List.length_insertionSort]

/-- The example cube of spec §8: corners 0,3,4,7 hold 0.1 and corners
1,2,5,6 hold 0.9. -/
def exampleValues : Fin 8 → ℚ :=
  ![1/10, 9/10, 9/10, 1/10, 1/10, 9/10, 9/10, 1/10]

/-- Shape of an edge midpoint of the unit cube: exactly one coordinate
equals 1/2 and the other two lie in {0, 1}. -/
def unitCubeEdgeMidpoint (p : Point) : Prop :=
  (p.1 = 1/2 ∧ (p.2.1 = 0 ∨ p.2.1 = 1) ∧ (p.2.2 = 0 ∨ p.2.2 = 1)) ∨
  (p.2.1 = 1/2 ∧ (p.1 = 0 ∨ p.1 = 1) ∧ (p.2.2 = 0 ∨ p.2.2 = 1)) ∨
  (p.2.2 = 1/2 ∧ (p.1 = 0 ∨ p.1 = 1) ∧ (p.2.1 = 0 ∨ p.2.1 = 1))

instance (p : Point) : Decidable (unitCubeEdgeMidpoint p) := by
  unfold unitCubeEdgeMidpoint
  infer_instance

/-! ### The normalization phase of `calculateWorldValues` (lines 360-376)

The generation phase samples the external `snoise4` noise library, which
is out of scope; the normalization phase is modelled over an arbitrary
(flattened, nonempty) pre-normalization field. -/

/-- Python float division: raises `ZeroDivisionError` when the
denominator is zero, modelled as `none`. -/
def pyDiv (a b : ℚ) : Option ℚ :=
  if b = 0 then none else some (a / b)

/-- Evaluation of `np.max(self.world)` (line 371) on the flattened field. -/
def worldMaxOf : List ℚ → ℚ
  | [] => 0
  | a :: l => l.foldl max a

/-- Evaluation of `np.min(self.world)` (line 372) on the flattened field. -/
def worldMinOf : List ℚ → ℚ
  | [] => 0
  | a :: l => l.foldl min a

/-- The remapping loop of lines 373-376: every sample is replaced by
`(value - worldMin) / (worldMax - worldMin)`; a zero division aborts the
whole pass (the Python exception propagates). -/
def normalizeLoop (worldMin d : ℚ) : List ℚ → Option (List ℚ)
  | [] => some []
  | v :: l =>
    match pyDiv (v - worldMin) d, normalizeLoop worldMin d l with
    | some x, some xs => some (x :: xs)
    | _, _ => none

/-- The normalization phase of `calculateWorldValues` (lines 370-376),
acting on the flattened field. -/
def normalizeWorld (w : List ℚ) : Option (List ℚ) :=
  normalizeLoop (worldMinOf w) (worldMaxOf w - worldMinOf w) w

/-- Modelled from the spec: the guarded normalization that the code lacks
(spec §4.1 `normalize`, §7): remap by `(value-min)/(max-min)`, except
that a perfectly flat field yields a field of all zeros instead of
dividing by zero. -/
def normalizeSpec (w : List ℚ) : List ℚ :=
  if worldMaxOf w = worldMinOf w then w.map (fun _ => 0)
  else w.map (fun v => (v - worldMinOf w) / (worldMaxOf w - worldMinOf w))

/-! ### The whole-grid driver `findPolygons` (lines 379-391)

The field `self.world` is modelled as a total function on integer
coordinates (the Python nested list is only ever read at indices below
`worldSize`). The polygon grid combines the allocation at line 103 (a
`worldSize`-cubed array of empty lists) with the triple loop of
`findPolygons` (which overwrites the entries with all coordinates below
`worldSize - 1`). -/

/-- The 8 corner samples gathered at lines 388-389, in the canonical
corner order of `VERTICES`. -/
def cubeValues (w : ℕ → ℕ → ℕ → ℚ) (x y z : ℕ) : Fin 8 → ℚ :=
  ![w x y z, w (x+1) y z, w (x+1) (y+1) z, w x (y+1) z,
    w x y (z+1), w (x+1) y (z+1), w (x+1) (y+1) (z+1), w x (y+1) (z+1)]

/-- The polygon grid after `findPolygons` has run: allocated as an
`n × n × n` array of empty lists (line 103), with every cell whose
coordinates are all below `n - 1` overwritten by the extracted polygon
(lines 384-391). -/
def findPolygons (n : ℕ) (w : ℕ → ℕ → ℕ → ℚ) (t : ℚ) :
    List (List (List (List Point))) :=
  (List.range n).map fun x =>
    (List.range n).map fun y =>
      (List.range n).map fun z =>
        if x < n - 1 ∧ y < n - 1 ∧ z < n - 1 then
          marchingCubesPolygons (cubeValues w x y z) t
        else []

/-- Reading entry `grid[x][y][z]`, with an empty default out of range. -/
def polyAt (g : List (List (List (List Point)))) (x y z : ℕ) : List Point :=
  ((g.getD x []).getD y []).getD z []

/-! ### Basic lemmas about the vertex-ordering pass -/

/-- The per-step sort is a permutation. -/
lemma sortByDist_perm (a : Point) (l : List Point) : List.Perm (sortByDist a l) l :=
  List.perm_insertionSort _ l

/-- The per-step sort preserves length. -/
lemma length_sortByDist (a : Point) (l : List Point) :
    (sortByDist a l).length = l.length :=
  List.length_insertionSort _ l

/-- The fueled ordering loop is a permutation of its input, for any fuel. -/
lemma chainSortAux_perm : ∀ (n : ℕ) (l : List Point), List.Perm (chainSortAux n l) l
  | 0, _ => List.Perm.refl _
  | _ + 1, [] => List.Perm.refl _
  | n + 1, a :: rest =>
    ((chainSortAux_perm n (sortByDist a rest)).trans (sortByDist_perm a rest)).cons a

/-- The ordering loop of lines 72-76 permutes the vertex list. -/
lemma chainSort_perm (l : List Point) : List.Perm (chainSort l) l :=
  chainSortAux_perm l.length l

/-- The ordering loop preserves the head of the list (the first iteration
of the Python loop keeps index 0 in place). -/
lemma head?_chainSort (l : List Point) : (chainSort l).head? = l.head? := by
  cases l with
  | nil => rfl
  | cons a rest => rfl

/-- The result of `marchingCubesPolygons` is a permutation of the
midpoints of the active edges, taken in `EDGES` order. -/
lemma marchingCubesPolygons_perm (values : Fin 8 → ℚ) (threshold : ℚ) :
    List.Perm (marchingCubesPolygons values threshold)
      ((EDGES.filter (fun e => isActive values threshold e)).map midpointOf) :=
  chainSort_perm _

/-- Membership in the returned polygon is exactly being the midpoint of
an active edge. -/
lemma mem_marchingCubesPolygons (values : Fin 8 → ℚ) (threshold : ℚ) (p : Point) :
    p ∈ marchingCubesPolygons values threshold ↔
      ∃ e ∈ EDGES, isActive values threshold e = true ∧ p = midpointOf e := by
  rw [(marchingCubesPolygons_perm values threshold).mem_iff]
  simp only [List.mem_map, List.mem_filter]
  constructor
  · rintro ⟨e, ⟨he, ha⟩, hp⟩
    exact ⟨e, he, ha, hp.symm⟩
  · rintro ⟨e, he, ha, hp⟩
    exact ⟨e, ⟨he, ha⟩, hp.symm⟩

/-- The returned polygon has one vertex per active edge. -/
lemma length_marchingCubesPolygons (values : Fin 8 → ℚ) (threshold : ℚ) :
    (marchingCubesPolygons values threshold).length =
      (EDGES.filter (fun e => isActive values threshold e)).length := by
  rw [(marchingCubesPolygons_perm values threshold).length_eq, List.length_map]

set_option maxRecDepth 10000 in
/-- Distinct edges of the cube have distinct midpoints. -/
lemma midpointOf_injOn :
    ∀ e ∈ EDGES, ∀ e' ∈ EDGES, midpointOf e = midpointOf e' → e = e' := by
  with_unfolding_all decide

/-- If no edge is active, the returned polygon is empty. -/
lemma marchingCubesPolygons_eq_nil (values : Fin 8 → ℚ) (threshold : ℚ)
    (h : ∀ e ∈ EDGES, isActive values threshold e = false) :
    marchingCubesPolygons values threshold = [] := by
  have hfil : EDGES.filter (fun e => isActive values threshold e) = [] :=
    List.filter_eq_nil_iff.mpr (by simpa using h)
  have hlen := length_marchingCubesPolygons values threshold
  rw [hfil] at hlen
  exact List.length_eq_zero.mp hlen

/-- The returned polygon never repeats a vertex: it is a permutation of
the midpoints of a sublist of the 12 edges, and those midpoints are
pairwise distinct. -/
lemma nodup_marchingCubesPolygons (values : Fin 8 → ℚ) (threshold : ℚ) :
    (marchingCubesPolygons values threshold).Nodup := by
  rw [(marchingCubesPolygons_perm values threshold).nodup_iff]
  have hE : EDGES.Nodup := by with_unfolding_all decide
  refine (hE.filter _).map_on ?_
  intro e he e' he' hmid
  exact midpointOf_injOn e (List.mem_of_mem_filter he) e' (List.mem_of_mem_filter he') hmid

/-- With enough fuel, the code's fueled loop is the spec's greedy chain. -/
lemma chainSortAux_eq_greedyChainOrder :
    ∀ (n : ℕ) (l : List Point), l.length ≤ n → chainSortAux n l = greedyChainOrder l := by
  intro n
  induction n with
  | zero =>
    intro l hl
    rw [Nat.le_zero, List.length_eq_zero] at hl
    subst hl
    rw [greedyChainOrder]
    rfl
  | succ n ih =>
    intro l hl
    cases l with
    | nil =>
      rw [greedyChainOrder]
      rfl
    | cons a rest =>
      have hrest : (sortByDist a rest).length ≤ n := by
        rw [length_sortByDist]
        exact Nat.le_of_succ_le_succ hl
      rw [greedyChainOrder]
      show a :: chainSortAux n (sortByDist a rest) = _
      rw [ih _ hrest]

/-- The code's ordering loop computes the spec's greedy chain order. -/
lemma chainSort_eq_greedyChainOrder (l : List Point) :
    chainSort l = greedyChainOrder l :=
  chainSortAux_eq_greedyChainOrder l.length l (Nat.le_refl _)

set_option maxRecDepth 10000 in
/-- Every edge midpoint of the cube has exactly one coordinate 1/2, the
other two in {0,1}, and lies inside the closed unit cube. -/
lemma midpointOf_shape :
    ∀ e ∈ EDGES,
      unitCubeEdgeMidpoint (midpointOf e) ∧
      0 ≤ (midpointOf e).1 ∧ (midpointOf e).1 ≤ 1 ∧
      0 ≤ (midpointOf e).2.1 ∧ (midpointOf e).2.1 ≤ 1 ∧
      0 ≤ (midpointOf e).2.2 ∧ (midpointOf e).2.2 ≤ 1 := by
  with_unfolding_all decide

/-! ### Lemmas about the normalization phase -/

/-- Folding `min` only lowers the initial value. -/
lemma foldl_min_le_init : ∀ (l : List ℚ) (a : ℚ), l.foldl min a ≤ a
  | [], a => le_refl a
  | b :: l, a =>
    le_trans (foldl_min_le_init l (min a b)) (min_le_left a b)

/-- Folding `max` only raises the initial value. -/
lemma init_le_foldl_max : ∀ (l : List ℚ) (a : ℚ), a ≤ l.foldl max a
  | [], a => le_refl a
  | b :: l, a =>
    le_trans (le_max_left a b) (init_le_foldl_max l (max a b))

/-- Minimum of the field is at most its maximum. -/
lemma worldMinOf_le_worldMaxOf (w : List ℚ) : worldMinOf w ≤ worldMaxOf w := by
  cases w with
  | nil => exact le_refl 0
  | cons a l =>
    exact le_trans (foldl_min_le_init l a) (init_le_foldl_max l a)

/-- A `min`-fold commutes with a function that distributes over `min`. -/
lemma foldl_min_map (f : ℚ → ℚ) (hf : ∀ x y, f (min x y) = min (f x) (f y)) :
    ∀ (l : List ℚ) (a : ℚ), (l.map f).foldl min (f a) = f (l.foldl min a)
  | [], _ => rfl
  | b :: l, a => by
    show (l.map f).foldl min (min (f a) (f b)) = f (l.foldl min (min a b))
    rw [← hf, foldl_min_map f hf l (min a b)]

/-- A `max`-fold commutes with a function that distributes over `max`. -/
lemma foldl_max_map (f : ℚ → ℚ) (hf : ∀ x y, f (max x y) = max (f x) (f y)) :
    ∀ (l : List ℚ) (a : ℚ), (l.map f).foldl max (f a) = f (l.foldl max a)
  | [], _ => rfl
  | b :: l, a => by
    show (l.map f).foldl max (max (f a) (f b)) = f (l.foldl max (max a b))
    rw [← hf, foldl_max_map f hf l (max a b)]

/-- With a nonzero denominator no division raises, and the loop maps
every sample through the affine remap. -/
lemma normalizeLoop_of_ne_zero (worldMin d : ℚ) (hd : d ≠ 0) :
    ∀ l : List ℚ, normalizeLoop worldMin d l = some (l.map fun v => (v - worldMin) / d)
  | [] => rfl
  | v :: l => by
    rw [normalizeLoop, pyDiv, if_neg hd, normalizeLoop_of_ne_zero worldMin d hd l]
    rfl

/-- With a zero denominator the very first sample raises. -/
lemma normalizeLoop_zero (worldMin : ℚ) (v : ℚ) (l : List ℚ) :
    normalizeLoop worldMin 0 (v :: l) = none := by
  rw [normalizeLoop, pyDiv, if_pos rfl]

/-- On a constant field, the denominator `worldMax - worldMin` is zero and
the very first remapped sample raises `ZeroDivisionError`. -/
lemma normalizeWorld_of_const (w : List ℚ) (hne : w ≠ [])
    (h : worldMinOf w = worldMaxOf w) : normalizeWorld w = none := by
  cases w with
  | nil => exact absurd rfl hne
  | cons a l =>
    have hd : worldMaxOf (a :: l) - worldMinOf (a :: l) = 0 := by
      rw [h, sub_self]
    rw [normalizeWorld, hd]
    exact normalizeLoop_zero _ a l

/-- On a non-constant field, normalization succeeds and remaps every
sample affinely. -/
lemma normalizeWorld_of_ne (w : List ℚ) (h : worldMinOf w ≠ worldMaxOf w) :
    normalizeWorld w =
      some (w.map fun v => (v - worldMinOf w) / (worldMaxOf w - worldMinOf w)) := by
  have hd : worldMaxOf w - worldMinOf w ≠ 0 := sub_ne_zero.mpr (Ne.symm h)
  rw [normalizeWorld, normalizeLoop_of_ne_zero _ _ hd]

/-- A monotone map commutes with the field minimum. -/
lemma worldMinOf_map (f : ℚ → ℚ) (hf : Monotone f) :
    ∀ w : List ℚ, w ≠ [] → worldMinOf (List.map f w) = f (worldMinOf w)
  | [], h => absurd rfl h
  | a :: l, _ => foldl_min_map f (fun _ _ => hf.map_min) l a

/-- A monotone map commutes with the field maximum. -/
lemma worldMaxOf_map (f : ℚ → ℚ) (hf : Monotone f) :
    ∀ w : List ℚ, w ≠ [] → worldMaxOf (List.map f w) = f (worldMaxOf w)
  | [], h => absurd rfl h
  | a :: l, _ => foldl_max_map f (fun _ _ => hf.map_max) l a

/-- The affine remap sends the field minimum to 0 and the field maximum
to 1 when the field is non-constant. -/
lemma normalized_min_max (w : List ℚ) (hne : w ≠ [])
    (h : worldMinOf w ≠ worldMaxOf w) :
    worldMinOf (w.map fun v => (v - worldMinOf w) / (worldMaxOf w - worldMinOf w)) = 0
    ∧ worldMaxOf (w.map fun v => (v - worldMinOf w) / (worldMaxOf w - worldMinOf w)) = 1 := by
  have hdpos : 0 < worldMaxOf w - worldMinOf w :=
    sub_pos.mpr (lt_of_le_of_ne (worldMinOf_le_worldMaxOf w) h)
  have hd : worldMaxOf w - worldMinOf w ≠ 0 := ne_of_gt hdpos
  have hmono : Monotone fun v => (v - worldMinOf w) / (worldMaxOf w - worldMinOf w) := by
    intro x y hxy
    exact (div_le_div_iff_of_pos_right hdpos).mpr (sub_le_sub_right hxy _)
  constructor
  · rw [worldMinOf_map _ hmono w hne]
    show (worldMinOf w - worldMinOf w) / (worldMaxOf w - worldMinOf w) = 0
    rw [sub_self, zero_div]
  · rw [worldMaxOf_map _ hmono w hne]
    show (worldMaxOf w - worldMinOf w) / (worldMaxOf w - worldMinOf w) = 1
    rw [div_self hd]

/-! ### Lemmas about the grid driver -/

/-- Reading a mapped range at an in-range index. -/
lemma getD_map_range {α : Type} (f : ℕ → α) (d : α) {n x : ℕ} (hx : x < n) :
    (((List.range n).map f).getD x d) = f x := by
  rw [List.getD_eq_getElem?_getD, List.getElem?_map, List.getElem?_range hx]
  rfl

/-- Reading a mapped range at an out-of-range index gives the default. -/
lemma getD_map_range_ge {α : Type} (f : ℕ → α) (d : α) {n x : ℕ} (hx : n ≤ x) :
    (((List.range n).map f).getD x d) = d := by
  rw [List.getD_eq_getElem?_getD, List.getElem?_eq_none]
  · rfl
  · rw [List.length_map, List.length_range]
    exact hx

/-- Characterization of every cell of the produced polygon grid: the
cells of the interior `(n-1)³` block hold the polygon extracted from the
cube anchored there, every other cell holds the empty list. -/
lemma polyAt_findPolygons (n : ℕ) (w : ℕ → ℕ → ℕ → ℚ) (t : ℚ) (x y z : ℕ) :
    polyAt (findPolygons n w t) x y z =
      if x < n - 1 ∧ y < n - 1 ∧ z < n - 1 then
        marchingCubesPolygons (cubeValues w x y z) t
      else [] := by
  have hsub : ∀ m : ℕ, m < n - 1 → m < n := fun m hm =>
    lt_of_lt_of_le hm (Nat.sub_le n 1)
  rw [polyAt, findPolygons]
  by_cases hx : x < n
  · rw [getD_map_range _ _ hx]
    by_cases hy : y < n
    · rw [getD_map_range _ _ hy]
      by_cases hz : z < n
      · rw [getD_map_range _ _ hz]
      · rw [getD_map_range_ge _ _ (Nat.le_of_not_lt hz)]
        rw [if_neg]
        intro hcon
        exact hz (hsub z hcon.2.2)
    · rw [getD_map_range_ge _ _ (Nat.le_of_not_lt hy), List.getD_nil]
      rw [if_neg]
      intro hcon
      exact hy (hsub y hcon.2.1)
  · rw [getD_map_range_ge _ _ (Nat.le_of_not_lt hx), List.getD_nil, List.getD_nil]
    rw [if_neg]
    intro hcon
    exact hx (hsub x hcon.1)

/-! ### The specification claims -/

/-- C1: `marchingCubesPolygons` emits the vertex of edge `(a, b)` of the
fixed 12-edge table if and only if `(values[a] > threshold) !=
(values[b] > threshold)`; values exactly equal to the threshold count as
not greater, so a cube whose 8 values all equal the threshold yields an
empty polygon. -/
theorem active_edge_iff_vertex_emitted (values : Fin 8 → ℚ) (threshold : ℚ) :
    (∀ e ∈ EDGES,
      (midpointOf e ∈ marchingCubesPolygons values threshold ↔
        isActive values threshold e = true))
    ∧ ((∀ i, values i = threshold) → marchingCubesPolygons values threshold = []) := by
  constructor
  · intro e he
    rw [mem_marchingCubesPolygons]
    constructor
    · rintro ⟨e', he', ha', hmid⟩
      have hee : e = e' := midpointOf_injOn e he e' he' hmid
      rw [hee]
      exact ha'
    · intro ha
      exact ⟨e, he, ha, rfl⟩
  · intro hall
    apply marchingCubesPolygons_eq_nil
    intro e _
    rw [isActive, hall e.1, hall e.2]
    simp

/-- Witness for C1 at a concrete input: the uniform cube with all 8
values equal to the threshold 1/2 yields an empty polygon. -/
theorem active_edge_iff_vertex_emitted_witness :
    marchingCubesPolygons (fun _ => (1/2 : ℚ)) (1/2) = [] :=
  (active_edge_iff_vertex_emitted (fun _ => (1/2 : ℚ)) (1/2)).2 (fun _ => rfl)

/-- C2: the number of vertices returned equals the number of the 12 fixed
cube edges whose endpoint values straddle the threshold under the
tie-break rule; when every value is strictly on one side of the
threshold the returned sequence is empty. -/
theorem vertex_count_eq_active_edge_count (values : Fin 8 → ℚ) (threshold : ℚ) :
    (marchingCubesPolygons values threshold).length =
      (EDGES.filter (fun e => isActive values threshold e)).length
    ∧ (((∀ i, values i > threshold) ∨ (∀ i, values i < threshold)) →
        marchingCubesPolygons values threshold = []) := by
  refine ⟨length_marchingCubesPolygons values threshold, ?_⟩
  intro hside
  apply marchingCubesPolygons_eq_nil
  intro e _
  rw [isActive]
  rcases hside with hall | hall
  · rw [decide_eq_true (hall e.1), decide_eq_true (hall e.2)]
    rfl
  · rw [decide_eq_false (lt_asymm (hall e.1)), decide_eq_false (lt_asymm (hall e.2))]
    rfl

/-- Witness for C2 at a concrete input: all values strictly above the
threshold give the empty polygon. -/
theorem vertex_count_eq_active_edge_count_witness :
    marchingCubesPolygons (fun _ => (1 : ℚ)) 0 = [] :=
  (vertex_count_eq_active_edge_count (fun _ => (1 : ℚ)) 0).2 (Or.inl fun _ => one_pos)

set_option maxRecDepth 10000 in
/-- C3: each returned vertex is the arithmetic midpoint of the two fixed
corner positions of its active edge; on the example cube
`[0.1, 0.9, 0.9, 0.1, 0.1, 0.9, 0.9, 0.1]` with threshold `0.5`, the
returned vertices are exactly the midpoints of the four active edges
`(0,1), (2,3), (4,5), (6,7)`, which connect the low corners {0,3,4,7}
to adjacent high corners {1,2,5,6}. -/
theorem vertices_are_active_edge_midpoints (values : Fin 8 → ℚ) (threshold : ℚ) :
    (∀ p ∈ marchingCubesPolygons values threshold,
      ∃ e ∈ EDGES, isActive values threshold e = true ∧ p = midpointOf e)
    ∧ marchingCubesPolygons exampleValues (1/2) =
        [(1/2, 0, 0), (1/2, 1, 0), (1/2, 1, 1), (1/2, 0, 1)]
    ∧ (∀ p ∈ marchingCubesPolygons exampleValues (1/2),
        ∃ e ∈ ([(0, 1), (2, 3), (4, 5), (6, 7)] : List (Fin 8 × Fin 8)),
          isActive exampleValues (1/2) e = true ∧ p = midpointOf e) := by
  refine ⟨?_, ?_, ?_⟩
  · intro p hp
    exact (mem_marchingCubesPolygons values threshold p).mp hp
  · with_unfolding_all decide
  · with_unfolding_all decide

/-- Witness for C3 at a concrete input: the vertex (1/2, 0, 0) of the
example cube is the midpoint of an active edge. -/
theorem vertices_are_active_edge_midpoints_witness :
    ∃ e ∈ EDGES, isActive exampleValues (1/2) e = true ∧
      ((1/2 : ℚ), (0 : ℚ), (0 : ℚ)) = midpointOf e :=
  (vertices_are_active_edge_midpoints exampleValues (1/2)).1 ((1/2 : ℚ), 0, 0)
    (by with_unfolding_all decide)

/-- C4: the vertex list is ordered by the selection-based greedy chain
the spec describes: the full result equals the spec's greedy chain order
applied to the midpoints of the active edges taken in the fixed edge
enumeration order, and in particular the first vertex is the midpoint of
the first active edge found in that order. -/
theorem ordering_is_greedy_chain (values : Fin 8 → ℚ) (threshold : ℚ) :
    marchingCubesPolygons values threshold =
      greedyChainOrder
        ((EDGES.filter (fun e => isActive values threshold e)).map midpointOf)
    ∧ (marchingCubesPolygons values threshold).head? =
        ((EDGES.filter (fun e => isActive values threshold e)).map midpointOf).head? :=
  ⟨chainSort_eq_greedyChainOrder _, head?_chainSort _⟩

/-- C5 (code bug): on a constant field the code's normalization divides
by zero (modelled `none`, a `ZeroDivisionError`), while the spec mandates
an all-zero field — which the guarded `normalizeSpec` produces; on a
non-constant field the code normalizes to minimum 0 and maximum 1 as the
claim states. -/
theorem normalize_behavior (w : List ℚ) (hne : w ≠ []) :
    (worldMinOf w = worldMaxOf w →
      normalizeWorld w = none
      ∧ normalizeSpec w = w.map fun _ => 0)
    ∧ (worldMinOf w ≠ worldMaxOf w →
      normalizeWorld w =
        some (w.map fun v => (v - worldMinOf w) / (worldMaxOf w - worldMinOf w))
      ∧ worldMinOf (w.map fun v => (v - worldMinOf w) / (worldMaxOf w - worldMinOf w)) = 0
      ∧ worldMaxOf (w.map fun v => (v - worldMinOf w) / (worldMaxOf w - worldMinOf w)) = 1) := by
  constructor
  · intro h
    refine ⟨normalizeWorld_of_const w hne h, ?_⟩
    rw [normalizeSpec, if_pos h.symm]
  · intro h
    exact ⟨normalizeWorld_of_ne w h,
      (normalized_min_max w hne h).1, (normalized_min_max w hne h).2⟩

/-- Witness for C5 at a concrete input: the constant two-sample field
[0.3, 0.3] makes the code raise and the guarded version yield zeros. -/
theorem normalize_behavior_witness :
    normalizeWorld [(3 : ℚ)/10, 3/10] = none
    ∧ normalizeSpec [(3 : ℚ)/10, 3/10] = ([(3 : ℚ)/10, 3/10].map fun _ => 0) :=
  (normalize_behavior [(3 : ℚ)/10, 3/10] (List.cons_ne_nil _ _)).1
    (by with_unfolding_all decide)

/-- C6 counterexample: with worldSize 2, the grid produced by
`findPolygons` holds 2³ = 8 polygon entries, not (2−1)³ = 1 as the claim
states: the code allocates a worldSize³ array and only overwrites its
interior block. -/
theorem polygon_grid_size_counterexample :
    ((findPolygons 2 (fun _ _ _ => 0) (1/2)).flatten.flatten).length = 8
    ∧ ((findPolygons 2 (fun _ _ _ => 0) (1/2)).flatten.flatten).length ≠ (2 - 1)^3 := by
  with_unfolding_all decide

/-- C6 (amended): `findPolygons` produces a worldSize³ grid whose
interior (worldSize−1)³ block holds, at (x,y,z), the polygon extracted
from the 8 corner samples at (x,y,z)…(x+1,y+1,z+1) gathered in the
canonical corner order, while every other entry stays the empty list. -/
theorem findPolygons_grid_characterization (n : ℕ) (w : ℕ → ℕ → ℕ → ℚ) (t : ℚ) :
    (findPolygons n w t).length = n
    ∧ (∀ plane ∈ findPolygons n w t,
        plane.length = n ∧ ∀ row ∈ plane, row.length = n)
    ∧ (∀ x y z : ℕ, x < n - 1 → y < n - 1 → z < n - 1 →
        polyAt (findPolygons n w t) x y z =
          marchingCubesPolygons (cubeValues w x y z) t)
    ∧ (∀ x y z : ℕ, ¬(x < n - 1 ∧ y < n - 1 ∧ z < n - 1) →
        polyAt (findPolygons n w t) x y z = []) := by
  refine ⟨?_, ?_, ?_, ?_⟩
  · rw [findPolygons, List.length_map, List.length_range]
  · intro plane hplane
    rw [findPolygons] at hplane
    obtain ⟨x, _, rfl⟩ := List.mem_map.mp hplane
    refine ⟨by rw [List.length_map, List.length_range], ?_⟩
    intro row hrow
    obtain ⟨y, _, rfl⟩ := List.mem_map.mp hrow
    rw [List.length_map, List.length_range]
  · intro x y z hx hy hz
    rw [polyAt_findPolygons, if_pos ⟨hx, hy, hz⟩]
  · intro x y z hcon
    rw [polyAt_findPolygons, if_neg hcon]

/-- Witness for the amended C6 at a concrete input: the single interior
cell of a worldSize-2 grid holds the extracted polygon of its cube. -/
theorem findPolygons_grid_characterization_witness :
    polyAt (findPolygons 2 (fun _ _ _ => (0 : ℚ)) (1/2)) 0 0 0 =
      marchingCubesPolygons (cubeValues (fun _ _ _ => (0 : ℚ)) 0 0 0) (1/2) :=
  (findPolygons_grid_characterization 2 (fun _ _ _ => (0 : ℚ)) (1/2)).2.2.1 0 0 0
    (by decide) (by decide) (by decide)

/-- C7: the polygon-grid entry at (x,y,z) depends only on the 8 field
samples at (x..x+1, y..y+1, z..z+1): two fields that agree on that
2×2×2 neighborhood give identical entries there. -/
theorem polygon_entry_local_dependence (n : ℕ) (w w' : ℕ → ℕ → ℕ → ℚ) (t : ℚ)
    (x y z : ℕ)
    (h : ∀ dx dy dz : ℕ, dx ≤ 1 → dy ≤ 1 → dz ≤ 1 →
      w (x + dx) (y + dy) (z + dz) = w' (x + dx) (y + dy) (z + dz)) :
    polyAt (findPolygons n w t) x y z = polyAt (findPolygons n w' t) x y z := by
  have hcv : cubeValues w x y z = cubeValues w' x y z := by
    funext i
    fin_cases i
    · simpa [cubeValues] using h 0 0 0 (by decide) (by decide) (by decide)
    · simpa [cubeValues] using h 1 0 0 (by decide) (by decide) (by decide)
    · simpa [cubeValues] using h 1 1 0 (by decide) (by decide) (by decide)
    · simpa [cubeValues] using h 0 1 0 (by decide) (by decide) (by decide)
    · simpa [cubeValues] using h 0 0 1 (by decide) (by decide) (by decide)
    · simpa [cubeValues] using h 1 0 1 (by decide) (by decide) (by decide)
    · simpa [cubeValues] using h 1 1 1 (by decide) (by decide) (by decide)
    · simpa [cubeValues] using h 0 1 1 (by decide) (by decide) (by decide)
  rw [polyAt_findPolygons, polyAt_findPolygons, hcv]

/-- Witness for C7 at a concrete input: mutating the field far away from
the cube at the origin leaves its polygon unchanged. -/
theorem polygon_entry_local_dependence_witness :
    polyAt (findPolygons 2 (fun _ _ _ => (0 : ℚ)) (1/2)) 0 0 0 =
      polyAt (findPolygons 2 (fun a _ _ => if a = 3 then (9 : ℚ) else 0) (1/2)) 0 0 0 :=
  polygon_entry_local_dependence 2 (fun _ _ _ => (0 : ℚ))
    (fun a _ _ => if a = 3 then (9 : ℚ) else 0) (1/2) 0 0 0
    (by
      intro dx dy dz hdx hdy hdz
      interval_cases dx <;> rfl)

set_option maxRecDepth 10000 in
/-- C8 counterexample: a cube with a single corner strictly above the
threshold yields 3 vertices — an odd count, refuting the claim that the
returned count is always even. -/
theorem odd_vertex_count_counterexample :
    (marchingCubesPolygons ![1, 0, 0, 0, 0, 0, 0, 0] (1/2)).length = 3
    ∧ ¬ Even (marchingCubesPolygons ![1, 0, 0, 0, 0, 0, 0, 0] (1/2)).length := by
  with_unfolding_all decide

/-- C8 (amended): the vertex list returned by `marchingCubesPolygons`
never holds more than 12 vertices (one per active edge), but its count
can be odd. -/
theorem vertex_count_at_most_twelve (values : Fin 8 → ℚ) (threshold : ℚ) :
    (marchingCubesPolygons values threshold).length ≤ 12 := by
  rw [length_marchingCubesPolygons]
  calc (EDGES.filter (fun e => isActive values threshold e)).length
      ≤ EDGES.length := List.length_filter_le _ _
    _ = 12 := rfl

/-- C9: `marchingCubesPolygons` is deterministic and stateless — two
calls with identical inputs return identical vertex lists (the embedding
is a pure function of `values` and `threshold` alone, exactly as the
Python function reads nothing but its arguments and its own locals). -/
theorem extractPolygon_deterministic (values values' : Fin 8 → ℚ) (t t' : ℚ)
    (hv : values = values') (ht : t = t') :
    marchingCubesPolygons values t = marchingCubesPolygons values' t' := by
  rw [hv, ht]

/-- Witness for C9 at a concrete input. -/
theorem extractPolygon_deterministic_witness :
    marchingCubesPolygons (fun _ => (1 : ℚ)) 1 = marchingCubesPolygons (fun _ => (1 : ℚ)) 1 :=
  extractPolygon_deterministic (fun _ => (1 : ℚ)) (fun _ => (1 : ℚ)) 1 1 rfl rfl

/-- C10: every returned vertex has exactly one coordinate equal to 1/2
and the other two in {0, 1}, hence lies in the closed unit cube; and the
returned vertices are pairwise distinct. -/
theorem vertex_structure_and_no_duplicates (values : Fin 8 → ℚ) (threshold : ℚ) :
    (∀ p ∈ marchingCubesPolygons values threshold,
      unitCubeEdgeMidpoint p ∧
      0 ≤ p.1 ∧ p.1 ≤ 1 ∧ 0 ≤ p.2.1 ∧ p.2.1 ≤ 1 ∧ 0 ≤ p.2.2 ∧ p.2.2 ≤ 1)
    ∧ (marchingCubesPolygons values threshold).Nodup := by
  constructor
  · intro p hp
    obtain ⟨e, he, _, rfl⟩ := (mem_marchingCubesPolygons values threshold p).mp hp
    exact midpointOf_shape e he
  · exact nodup_marchingCubesPolygons values threshold

/-- Witness for C10 at a concrete input: the vertex (1/2, 0, 0) of the
example cube has the required shape. -/
theorem vertex_structure_and_no_duplicates_witness :
    unitCubeEdgeMidpoint ((1/2 : ℚ), (0 : ℚ), (0 : ℚ)) :=
  ((vertex_structure_and_no_duplicates exampleValues (1/2)).1 ((1/2 : ℚ), 0, 0)
    (by with_unfolding_all decide)).1

end MarchingCubes
